import Mathlib

/-!
Verification of the AI-Scheduler-Chat-Bot repository.

Instants are modelled as integers counting microseconds on a single
absolute timeline (Python `datetime` objects, after the timezone
coercions performed by the code, compare as instants; `timedelta`
arithmetic is linear arithmetic on this timeline, assuming a
fixed-offset timezone so that one calendar day is exactly 86400
seconds).  Note that `/` and `%` on `Int` in Lean are Euclidean
division and remainder, which agree with Python's floor division `//`
and nonnegative `%` for the positive constant divisors used here.

Time intervals are pairs `(start, end) : Int × Int`, half-open
`[start, end)` for pointwise reasoning.
-/

namespace Scheduler

/-- Membership of an instant in a half-open interval. -/
def memIv (x : Int) (iv : Int × Int) : Prop := iv.1 ≤ x ∧ x < iv.2

instance (x : Int) (iv : Int × Int) : Decidable (memIv x iv) := by
  unfold memIv; infer_instance

/-- Membership of an instant in some interval of a list. -/
def inSome (x : Int) (l : List (Int × Int)) : Prop := ∃ iv ∈ l, memIv x iv

instance (x : Int) (l : List (Int × Int)) : Decidable (inSome x l) := by
  unfold inSome; infer_instance

/-- One obstacle applied to one free segment, from the inner loop of
`suggest_times` (`app/tools/mock_tools.py`, lines 70-74): if the
segment `(xs, xe)` and the busy block `(bs, be)` are disjoint
(`xe <= bs or be <= xs`) the segment is kept; otherwise the left
remainder `(xs, bs)` is kept when `xs < bs` and the right remainder
`(be, xe)` when `be < xe`. -/
def subSeg (seg : Int × Int) (b : Int × Int) : List (Int × Int) :=
  if seg.2 ≤ b.1 ∨ b.2 ≤ seg.1 then [seg]
  else
    (if seg.1 < b.1 then [(seg.1, b.1)] else []) ++
      (if b.2 < seg.2 then [(b.2, seg.2)] else [])

/-- One pass of the `for (bs, be) in busy` loop of `suggest_times`
(lines 68-75): every current segment is replaced by its remainders,
preserving order (`nxt.append`). -/
def applyObstacle (segs : List (Int × Int)) (b : Int × Int) : List (Int × Int) :=
  segs.flatMap (fun s => subSeg s b)

/-- Interval subtraction as performed by `suggest_times` (lines 67-75):
starting from the single free segment, the obstacles are applied in
list order. -/
def subtract (f : Int × Int) (obstacles : List (Int × Int)) : List (Int × Int) :=
  obstacles.foldl applyObstacle [f]

/-- Pointwise characterisation of `subSeg`: the remainders cover
exactly the points of the segment not covered by the obstacle. -/
theorem mem_subSeg (s b : Int × Int) (x : Int) :
    inSome x (subSeg s b) ↔ memIv x s ∧ ¬ memIv x b := by
  unfold subSeg inSome memIv
  split_ifs <;> (try simp_all [List.mem_append]) <;> omega

/-- Pointwise characterisation of one obstacle pass. -/
theorem mem_applyObstacle (segs : List (Int × Int)) (b : Int × Int) (x : Int) :
    inSome x (applyObstacle segs b) ↔ inSome x segs ∧ ¬ memIv x b := by
  unfold applyObstacle
  constructor
  · rintro ⟨iv, hiv, hx⟩
    rcases List.mem_flatMap.mp hiv with ⟨s, hs, hpiece⟩
    have := (mem_subSeg s b x).mp ⟨iv, hpiece, hx⟩
    exact ⟨⟨s, hs, this.1⟩, this.2⟩
  · rintro ⟨⟨s, hs, hx⟩, hb⟩
    rcases (mem_subSeg s b x).mpr ⟨hx, hb⟩ with ⟨iv, hiv, hxiv⟩
    exact ⟨iv, List.mem_flatMap.mpr ⟨s, hs, hiv⟩, hxiv⟩

/-- Pointwise characterisation of the whole subtraction loop, stated
for an arbitrary starting list of segments. -/
theorem mem_foldl_applyObstacle (O : List (Int × Int)) :
    ∀ (segs : List (Int × Int)) (x : Int),
      inSome x (O.foldl applyObstacle segs) ↔
        inSome x segs ∧ ∀ b ∈ O, ¬ memIv x b := by
  induction O with
  | nil => intro segs x; simp
  | cons b O ih =>
      intro segs x
      rw [List.foldl_cons, ih, mem_applyObstacle]
      constructor
      · rintro ⟨⟨hs, hb⟩, hO⟩
        refine ⟨hs, ?_⟩
        intro b' hb'
        rcases List.mem_cons.mp hb' with h | h
        · exact h ▸ hb
        · exact hO b' h
      · rintro ⟨hs, hall⟩
        exact ⟨⟨hs, hall b (List.mem_cons_self b O)⟩,
          fun b' hb' => hall b' (List.mem_cons_of_mem b hb')⟩

/-- Pointwise characterisation of `subtract`. -/
theorem mem_subtract (f : Int × Int) (O : List (Int × Int)) (x : Int) :
    inSome x (subtract f O) ↔ memIv x f ∧ ∀ b ∈ O, ¬ memIv x b := by
  unfold subtract
  rw [mem_foldl_applyObstacle]
  unfold inSome
  simp

/-- C4: for every free interval F and finite list of obstacles O, the
interval subtraction inside `suggest_times` produces segments none of
which overlaps any obstacle in O (no instant lies in both), and the
union of the result segments together with the union of the
intersections F ∩ O equals F (conservation of interval mass,
pointwise). -/
theorem c4_subtract_no_overlap_and_conserves (f : Int × Int) (O : List (Int × Int)) :
    (∀ seg ∈ subtract f O, ∀ b ∈ O, ∀ x : Int, ¬ (memIv x seg ∧ memIv x b)) ∧
      (∀ x : Int, (inSome x (subtract f O) ∨ (memIv x f ∧ inSome x O)) ↔ memIv x f) := by
  constructor
  · intro seg hseg b hb x ⟨hxs, hxb⟩
    exact ((mem_subtract f O x).mp ⟨seg, hseg, hxs⟩).2 b hb hxb
  · intro x
    constructor
    · rintro (h | ⟨hf, _⟩)
      · exact ((mem_subtract f O x).mp h).1
      · exact hf
    · intro hf
      by_cases hO : inSome x O
      · exact Or.inr ⟨hf, hO⟩
      · refine Or.inl ((mem_subtract f O x).mpr ⟨hf, ?_⟩)
        intro b hb hxb
        exact hO ⟨b, hb, hxb⟩

/-- Witness for C4 at concrete inputs: free interval (0, 10), one
obstacle (2, 5); the segment (0, 2) of the result does not contain
the instant 1 together with the obstacle, and the instant 3 satisfies
the conservation equivalence. -/
theorem c4_witness :
    (¬ (memIv 1 ((0 : Int), (2 : Int)) ∧ memIv 1 ((2 : Int), (5 : Int)))) ∧
      ((inSome 3 (subtract ((0 : Int), (10 : Int)) [((2 : Int), (5 : Int))]) ∨
          (memIv 3 ((0 : Int), (10 : Int)) ∧ inSome 3 [((2 : Int), (5 : Int))])) ↔
        memIv 3 ((0 : Int), (10 : Int))) :=
  ⟨(c4_subtract_no_overlap_and_conserves ((0 : Int), (10 : Int)) [((2 : Int), (5 : Int))]).1
      ((0 : Int), (2 : Int)) (by decide) ((2 : Int), (5 : Int)) (by decide) 1,
    (c4_subtract_no_overlap_and_conserves ((0 : Int), (10 : Int)) [((2 : Int), (5 : Int))]).2 3⟩

/-- Unfolding of one obstacle pass on a cons cell. -/
theorem applyObstacle_cons (s : Int × Int) (l : List (Int × Int)) (b : Int × Int) :
    applyObstacle (s :: l) b = subSeg s b ++ applyObstacle l b := by
  simp [applyObstacle]

/-- Unfolding of one obstacle pass on an append. -/
theorem applyObstacle_append (l₁ l₂ : List (Int × Int)) (b : Int × Int) :
    applyObstacle (l₁ ++ l₂) b = applyObstacle l₁ b ++ applyObstacle l₂ b := by
  simp [applyObstacle]

set_option maxHeartbeats 3200000 in
/-- Two well-formed obstacles applied to a single segment commute. -/
theorem subSeg_swap (s b₁ b₂ : Int × Int) (h₁ : b₁.1 ≤ b₁.2) (h₂ : b₂.1 ≤ b₂.2) :
    applyObstacle (subSeg s b₁) b₂ = applyObstacle (subSeg s b₂) b₁ := by
  obtain ⟨xs, xe⟩ := s
  obtain ⟨a₁, c₁⟩ := b₁
  obtain ⟨a₂, c₂⟩ := b₂
  simp only [applyObstacle, subSeg]
  split_ifs <;>
    simp only [List.flatMap_cons, List.flatMap_nil, List.flatMap_append,
      List.nil_append, List.append_nil, List.append_assoc] <;>
    (try split_ifs) <;>
    (try simp_all) <;> omega

/-- Two well-formed obstacles applied to a segment list commute. -/
theorem applyObstacle_swap (b₁ b₂ : Int × Int) (h₁ : b₁.1 ≤ b₁.2) (h₂ : b₂.1 ≤ b₂.2) :
    ∀ segs : List (Int × Int),
      applyObstacle (applyObstacle segs b₁) b₂ = applyObstacle (applyObstacle segs b₂) b₁ := by
  intro segs
  induction segs with
  | nil => rfl
  | cons s rest ih =>
      rw [applyObstacle_cons, applyObstacle_cons, applyObstacle_append, applyObstacle_append,
        ih, subSeg_swap s b₁ b₂ h₁ h₂]

/-- The obstacle fold is invariant under permutations of well-formed
obstacles, for any starting segment list. -/
theorem foldl_applyObstacle_perm {O O' : List (Int × Int)} (p : O.Perm O') :
    (∀ b ∈ O, b.1 ≤ b.2) →
      ∀ segs : List (Int × Int), O.foldl applyObstacle segs = O'.foldl applyObstacle segs := by
  induction p with
  | nil => intro _ segs; rfl
  | cons x p ih =>
      intro h segs
      simp only [List.foldl_cons]
      exact ih (fun b hb => h b (List.mem_cons_of_mem x hb)) _
  | swap x y l =>
      intro h segs
      simp only [List.foldl_cons]
      rw [applyObstacle_swap y x (h y (by simp)) (h x (by simp))]
  | trans p₁ p₂ ih₁ ih₂ =>
      intro h segs
      rw [ih₁ h segs, ih₂ (fun b hb => h b (p₁.mem_iff.mpr hb)) segs]

/-- C5 counterexample: with the reversed busy block (8, 3), applying
the obstacles in the two orders yields different final segment lists,
so order of obstacle application is not irrelevant for arbitrary
interval data. -/
theorem c5_counterexample :
    (([((8 : Int), (3 : Int)), ((5 : Int), (6 : Int))] : List (Int × Int)).Perm
        [((5 : Int), (6 : Int)), ((8 : Int), (3 : Int))]) ∧
      subtract ((0 : Int), (10 : Int)) [((8 : Int), (3 : Int)), ((5 : Int), (6 : Int))] ≠
        subtract ((0 : Int), (10 : Int)) [((5 : Int), (6 : Int)), ((8 : Int), (3 : Int))] := by
  constructor
  · decide
  · decide

/-- C5 (amended): when every obstacle is well-formed (start ≤ end),
applying the obstacles in any permutation of their order yields the
same final list of free segments. -/
theorem c5_subtract_perm_invariant (f : Int × Int) (O O' : List (Int × Int))
    (hperm : O.Perm O') (hwf : ∀ b ∈ O, b.1 ≤ b.2) :
    subtract f O = subtract f O' := by
  unfold subtract
  exact foldl_applyObstacle_perm hperm hwf [f]

/-- Witness for C5 at concrete inputs: the two well-formed obstacles
(2, 4) and (6, 8) may be applied in either order. -/
theorem c5_witness :
    subtract ((0 : Int), (10 : Int)) [((2 : Int), (4 : Int)), ((6 : Int), (8 : Int))] =
      subtract ((0 : Int), (10 : Int)) [((6 : Int), (8 : Int)), ((2 : Int), (4 : Int))] :=
  c5_subtract_perm_invariant ((0 : Int), (10 : Int)) _ _ (by decide) (by decide)

/-! ### Slot Suggestion Engine (`app/tools/mock_tools.py`, `suggest_times`)

The datetimes handled by `suggest_times` are modelled in microseconds.
`iso` (line 7-8) serialises a datetime after `replace(microsecond=0)`,
and the function re-parses those strings, so the round trip through a
stored block is modelled by `trunc` (floor to a whole second).  The
`replace(hour=…, minute=…, second=0, microsecond=0)` calendar
operations are modelled on the fixed-offset timeline, where a calendar
day is exactly 86400 seconds.  The work-hour strings have already been
split into integer hour and minute components (`map(int, …)`,
lines 35-36), and the window and busy timestamps have already been
parsed and coerced to the organiser timezone (lines 25-30, 56-61), so
the model takes those values as integers directly. -/

/-- Floor of an instant to a whole second, modelling
`dt.replace(microsecond=0)` inside `iso` followed by re-parsing. -/
def trunc (x : Int) : Int := x - x % 1000000

/-- Start of the calendar day containing an instant. -/
def dayFloor (x : Int) : Int := x - x % 86400000000

/-- The second-and-microsecond part of an instant within its minute,
kept by `replace(hour=…, minute=…)`. -/
def minuteRem (x : Int) : Int := x % 60000000

/-- Offset of a time-of-day `h:m` from the start of its day. -/
def hmOfs (h m : Int) : Int := (h * 3600 + m * 60) * 1000000

/-- Weekday abbreviation of an instant (`strftime("%a")`); day 0 of the
timeline (1970-01-01) was a Thursday. -/
def weekdayName (x : Int) : String :=
  (["Thu", "Fri", "Sat", "Sun", "Mon", "Tue", "Wed"]).getD ((x / 86400000000) % 7).toNat ""

/-- `clamp_to_window` (`mock_tools.py`, lines 10-12): intersect with the
window, returning a block only when it has positive length. -/
def clamp_to_window (s e ws we : Int) : Option (Int × Int) :=
  let s' := max s ws
  let e' := min e we
  if e' > s' then some (s', e') else none

/-- Inputs of `suggest_times` after parsing: window boundaries, the
requested duration in minutes, the work-hour fields, the allowed-day
names, and the busy blocks. -/
structure SParams where
  wstart : Int
  wend : Int
  durationMinutes : Int
  hsH : Int
  hsM : Int
  heH : Int
  heM : Int
  days : List String
  busy : List (Int × Int)

/-- The requested duration, `timedelta(minutes=duration_minutes)`. -/
def durationUs (p : SParams) : Int := p.durationMinutes * 60000000

/-- The free-block candidate of one loop iteration (lines 43-50):
`day_start` is the cursor, `day_end` is the cursor with the hour and
minute replaced by the work-hour end; the block is kept when it has
positive length, survives clamping to the window, and its (clamped)
start falls on an allowed weekday.  The stored block carries the
whole-second values produced by `iso`. -/
def blockStep (p : SParams) (cursor : Int) : List (Int × Int) :=
  let dayStart := cursor
  let dayEnd := dayFloor cursor + hmOfs p.heH p.heM + minuteRem cursor
  if dayEnd > dayStart then
    match clamp_to_window dayStart dayEnd p.wstart p.wend with
    | some (d0, d1) =>
        if p.days.isEmpty || p.days.contains (weekdayName d0) then
          [(trunc d0, trunc d1)]
        else []
    | none => []
  else []

/-- `(day_cursor + timedelta(days=1)).replace(hour=hs, minute=hm)`
(line 52): advance one day, then replace the hour and minute fields,
keeping the second-and-microsecond part. -/
def nextCursor (p : SParams) (cursor : Int) : Int :=
  dayFloor (cursor + 86400000000) + hmOfs p.hsH p.hsM + minuteRem (cursor + 86400000000)

/-- The `while day_cursor < wend` loop of lines 42-52, with explicit
fuel standing for the (finite) number of iterations; `freeBlocks`
supplies fuel sufficient for the whole window. -/
def buildBlocksAux (p : SParams) : Nat → Int → List (Int × Int)
  | 0, _ => []
  | fuel + 1, cursor =>
      if cursor < p.wend then blockStep p cursor ++ buildBlocksAux p fuel (nextCursor p cursor)
      else []

/-- The initial day cursor (line 41):
`wstart.replace(hour=hs, minute=hm, second=0, microsecond=0)`. -/
def initCursor (p : SParams) : Int := dayFloor p.wstart + hmOfs p.hsH p.hsM

/-- Fuel bound for the day loop: the cursor advances by at least one
day per iteration, so this many iterations always reach `wend`. -/
def blockFuel (p : SParams) : Nat := ((p.wend - initCursor p) / 86400000000).toNat + 1

/-- The `free_blocks` list of `suggest_times` (lines 40-52). -/
def freeBlocks (p : SParams) : List (Int × Int) :=
  buildBlocksAux p (blockFuel p) (initCursor p)

/-- The `refined` list of `suggest_times` (lines 63-78): subtract every
busy block from each free block and keep the segments at least as long
as the requested duration, stored again through `iso` (whole
seconds). -/
def refined (p : SParams) : List (Int × Int) :=
  (freeBlocks p).flatMap fun blk =>
    ((subtract blk p.busy).filter fun s => durationUs p ≤ s.2 - s.1).map fun s =>
      (trunc s.1, trunc s.2)

/-- The proposal loop of `suggest_times` (lines 80-88): for each
refined block, anchor a slot of the requested duration at its start,
keep it when it fits in the block, and stop once three proposals have
been collected. -/
def proposeAux (d : Int) : List (Int × Int) → Nat → List (Int × Int)
  | [], _ => []
  | blk :: rest, n =>
      let startDt := blk.1
      let endDt := startDt + d
      if endDt ≤ blk.2 then
        if n + 1 ≥ 3 then [(trunc startDt, trunc endDt)]
        else (trunc startDt, trunc endDt) :: proposeAux d rest (n + 1)
      else proposeAux d rest n

/-- The candidate slots returned by `suggest_times` (the `proposals`
list); the constant confidence score 0.8 carried alongside each slot
is omitted from the model. -/
def candidates (p : SParams) : List (Int × Int) :=
  proposeAux (durationUs p) (refined p) 0

/-- Truncation never increases an instant. -/
theorem trunc_le (x : Int) : trunc x ≤ x := by
  unfold trunc; omega

/-- Truncation is monotone. -/
theorem trunc_mono {a b : Int} (h : a ≤ b) : trunc a ≤ trunc b := by
  unfold trunc; omega

/-- Truncation commutes with adding a whole number of seconds. -/
theorem trunc_add_mul (a k : Int) : trunc (a + k * 1000000) = trunc a + k * 1000000 := by
  unfold trunc; omega

/-- Truncation is idempotent. -/
theorem trunc_idem (x : Int) : trunc (trunc x) = trunc x := by
  unfold trunc; omega

/-- Truncation fixes whole-second instants. -/
theorem trunc_whole {x : Int} (h : x % 1000000 = 0) : trunc x = x := by
  unfold trunc; omega

/-- Truncation always produces a whole-second instant. -/
theorem trunc_is_whole (x : Int) : trunc x % 1000000 = 0 := by
  unfold trunc; omega

/-- The requested duration is a whole number of seconds. -/
theorem durationUs_eq (p : SParams) : durationUs p = p.durationMinutes * 60 * 1000000 := by
  unfold durationUs; ring

/-- Every remainder produced by `subSeg` is the original segment, its
left part cut at the obstacle start, or its right part starting at the
obstacle end. -/
theorem subSeg_mem_cases {s b t : Int × Int} (ht : t ∈ subSeg s b) :
    (t.1 = s.1 ∧ t.2 = s.2) ∨
      (t.1 = s.1 ∧ t.2 = b.1 ∧ s.1 < b.1 ∧ b.1 < s.2 ∧ s.1 < b.2) ∨
      (t.1 = b.2 ∧ t.2 = s.2 ∧ b.2 < s.2 ∧ b.1 < s.2 ∧ s.1 < b.2) := by
  unfold subSeg at ht
  split_ifs at ht <;> simp_all [List.mem_append, Prod.ext_iff]

/-- Every segment surviving the subtraction fold lies inside one of the
starting segments. -/
theorem foldl_applyObstacle_bounds (O : List (Int × Int)) :
    ∀ (segs : List (Int × Int)) (t : Int × Int), t ∈ O.foldl applyObstacle segs →
      ∃ s ∈ segs, s.1 ≤ t.1 ∧ t.2 ≤ s.2 := by
  induction O with
  | nil => intro segs t ht; exact ⟨t, ht, le_refl _, le_refl _⟩
  | cons b O ih =>
      intro segs t ht
      rcases ih (applyObstacle segs b) t ht with ⟨s', hs', h1, h2⟩
      rcases List.mem_flatMap.mp hs' with ⟨s, hs, hpiece⟩
      have hcases := subSeg_mem_cases hpiece
      exact ⟨s, hs, by omega, by omega⟩

/-- Every segment of `subtract blk O` lies inside the free block. -/
theorem subtract_bounds {blk : Int × Int} {O : List (Int × Int)} {t : Int × Int}
    (ht : t ∈ subtract blk O) : blk.1 ≤ t.1 ∧ t.2 ≤ blk.2 := by
  rcases foldl_applyObstacle_bounds O [blk] t ht with ⟨s, hs, h1, h2⟩
  rcases List.mem_singleton.mp hs with rfl
  exact ⟨h1, h2⟩

/-- Whole-second endpoints are preserved by the subtraction fold. -/
theorem foldl_applyObstacle_whole {O : List (Int × Int)}
    (hO : ∀ b ∈ O, b.1 % 1000000 = 0 ∧ b.2 % 1000000 = 0) :
    ∀ (segs : List (Int × Int)),
      (∀ s ∈ segs, s.1 % 1000000 = 0 ∧ s.2 % 1000000 = 0) →
      ∀ t ∈ O.foldl applyObstacle segs, t.1 % 1000000 = 0 ∧ t.2 % 1000000 = 0 := by
  induction O with
  | nil => intro segs hsegs t ht; exact hsegs t ht
  | cons b O ih =>
      intro segs hsegs t ht
      refine ih (fun b' hb' => hO b' (List.mem_cons_of_mem b hb')) (applyObstacle segs b) ?_ t ht
      intro u hu
      rcases List.mem_flatMap.mp hu with ⟨s, hs, hpiece⟩
      have hb := hO b (List.mem_cons_self b O)
      have hsW := hsegs s hs
      have hcases := subSeg_mem_cases hpiece
      exact ⟨by omega, by omega⟩

/-- The remainders of one segment are internally chained when the
obstacle is well-formed. -/
theorem subSeg_pairwise {s b : Int × Int} (hwf : b.1 ≤ b.2) :
    List.Pairwise (fun u v : Int × Int => u.2 ≤ v.1) (subSeg s b) := by
  unfold subSeg
  split_ifs <;> simp_all [List.pairwise_append]

/-- One obstacle pass preserves the chained-and-ordered shape of the
segment list, together with segment well-formedness. -/
theorem applyObstacle_chain {b : Int × Int} (hwf : b.1 ≤ b.2) :
    ∀ segs : List (Int × Int),
      List.Pairwise (fun u v : Int × Int => u.2 ≤ v.1) segs →
      (∀ s ∈ segs, s.1 ≤ s.2) →
      List.Pairwise (fun u v : Int × Int => u.2 ≤ v.1) (applyObstacle segs b) ∧
        ∀ t ∈ applyObstacle segs b, t.1 ≤ t.2 := by
  intro segs
  induction segs with
  | nil => intro _ _; exact ⟨List.Pairwise.nil, by simp [applyObstacle]⟩
  | cons s rest ih =>
      intro hchain hpos
      rcases List.pairwise_cons.mp hchain with ⟨hs_rest, hrest⟩
      rcases ih hrest (fun u hu => hpos u (List.mem_cons_of_mem s hu)) with ⟨ihChain, ihPos⟩
      have hsPos : s.1 ≤ s.2 := hpos s (List.mem_cons_self s rest)
      rw [applyObstacle_cons]
      constructor
      · refine List.pairwise_append.mpr ⟨subSeg_pairwise hwf, ihChain, ?_⟩
        intro t ht u hu
        rcases List.mem_flatMap.mp hu with ⟨r, hr, hur⟩
        have hc1 := subSeg_mem_cases ht
        have hc2 := subSeg_mem_cases hur
        have := hs_rest r hr
        omega
      · intro t ht
        rcases List.mem_append.mp ht with h | h
        · have hcases := subSeg_mem_cases h
          omega
        · exact ihPos t h

/-- The subtraction fold preserves the chained shape and segment
well-formedness when every obstacle is well-formed. -/
theorem foldl_applyObstacle_chain {O : List (Int × Int)} (hO : ∀ b ∈ O, b.1 ≤ b.2) :
    ∀ segs : List (Int × Int),
      List.Pairwise (fun u v : Int × Int => u.2 ≤ v.1) segs →
      (∀ s ∈ segs, s.1 ≤ s.2) →
      List.Pairwise (fun u v : Int × Int => u.2 ≤ v.1) (O.foldl applyObstacle segs) ∧
        ∀ t ∈ O.foldl applyObstacle segs, t.1 ≤ t.2 := by
  induction O with
  | nil => intro segs h1 h2; exact ⟨h1, h2⟩
  | cons b O ih =>
      intro segs h1 h2
      have hb := hO b (List.mem_cons_self b O)
      rcases applyObstacle_chain hb segs h1 h2 with ⟨h1', h2'⟩
      exact ih (fun b' hb' => hO b' (List.mem_cons_of_mem b hb')) _ h1' h2'

/-- A block emitted for the cursor `c` is the clamped work-hour block
of that day, truncated to whole seconds, and the clamp was
non-degenerate. -/
theorem blockStep_mem_eq {p : SParams} {c : Int} {blk : Int × Int} (h : blk ∈ blockStep p c) :
    blk = (trunc (max c p.wstart),
        trunc (min (dayFloor c + hmOfs p.heH p.heM + minuteRem c) p.wend)) ∧
      max c p.wstart < min (dayFloor c + hmOfs p.heH p.heM + minuteRem c) p.wend := by
  unfold blockStep clamp_to_window at h
  dsimp only at h
  split_ifs at h <;> simp_all

/-- One loop iteration emits at most one block. -/
theorem blockStep_cases (p : SParams) (c : Int) :
    blockStep p c = [] ∨ ∃ x, blockStep p c = [x] := by
  unfold blockStep clamp_to_window
  dsimp only
  split_ifs <;> simp_all
  split_ifs <;> simp_all

/-- Every block produced by the day loop is a block of some day. -/
theorem buildBlocksAux_mem_step {p : SParams} :
    ∀ {fuel : Nat} {c : Int} {blk : Int × Int}, blk ∈ buildBlocksAux p fuel c →
      ∃ c', blk ∈ blockStep p c' := by
  intro fuel
  induction fuel with
  | zero => intro c blk h; simp [buildBlocksAux] at h
  | succ n ih =>
      intro c blk h
      unfold buildBlocksAux at h
      split_ifs at h
      · rcases List.mem_append.mp h with h' | h'
        · exact ⟨c, h'⟩
        · exact ih h'
      · simp at h

/-- The day cursor never moves backwards. -/
theorem nextCursor_ge {p : SParams} (hh : 0 ≤ p.hsH) (hm : 0 ≤ p.hsM) (c : Int) :
    c ≤ nextCursor p c := by
  unfold nextCursor dayFloor hmOfs minuteRem
  omega

/-- Every block produced from the cursor `c` onwards starts no earlier
than the truncated cursor. -/
theorem buildBlocksAux_lb {p : SParams} (hh : 0 ≤ p.hsH) (hm : 0 ≤ p.hsM) :
    ∀ (fuel : Nat) (c : Int), ∀ blk ∈ buildBlocksAux p fuel c, trunc c ≤ blk.1 := by
  intro fuel
  induction fuel with
  | zero => intro c blk h; simp [buildBlocksAux] at h
  | succ n ih =>
      intro c blk h
      unfold buildBlocksAux at h
      split_ifs at h
      · rcases List.mem_append.mp h with h' | h'
        · rcases blockStep_mem_eq h' with ⟨rfl, _⟩
          exact trunc_mono (le_max_left _ _)
        · exact le_trans (trunc_mono (nextCursor_ge hh hm c)) (ih (nextCursor p c) blk h')
      · simp at h

/-- The work-hour block of a day ends no later than the next day
cursor. -/
theorem dayEnd_le_nextCursor {p : SParams} (hh : 0 ≤ p.hsH) (hm : 0 ≤ p.hsM)
    (he1 : p.heH ≤ 23) (he2 : p.heM ≤ 59) (c : Int) :
    dayFloor c + hmOfs p.heH p.heM + minuteRem c ≤ nextCursor p c := by
  unfold nextCursor dayFloor hmOfs minuteRem
  omega

/-- The blocks of the day loop are chained in chronological order. -/
theorem buildBlocksAux_chain {p : SParams} (hh : 0 ≤ p.hsH) (hm : 0 ≤ p.hsM)
    (he1 : p.heH ≤ 23) (he2 : p.heM ≤ 59) :
    ∀ (fuel : Nat) (c : Int),
      List.Pairwise (fun u v : Int × Int => u.2 ≤ v.1) (buildBlocksAux p fuel c) := by
  intro fuel
  induction fuel with
  | zero => intro c; simp [buildBlocksAux]
  | succ n ih =>
      intro c
      unfold buildBlocksAux
      split_ifs
      · refine List.pairwise_append.mpr ⟨?_, ih (nextCursor p c), ?_⟩
        · rcases blockStep_cases p c with h | ⟨x, h⟩ <;> simp [h]
        · intro a ha b hb
          rcases blockStep_mem_eq ha with ⟨rfl, _⟩
          have hlb := buildBlocksAux_lb hh hm n (nextCursor p c) b hb
          refine le_trans (le_trans (trunc_mono ?_) (trunc_mono (dayEnd_le_nextCursor hh hm he1 he2 c))) hlb
          exact min_le_left _ _
      · exact List.Pairwise.nil

/-- Every free block lies inside the window when the window start is a
whole second, and is a well-formed whole-second interval. -/
theorem freeBlocks_mem_props {p : SParams} {blk : Int × Int} (h : blk ∈ freeBlocks p)
    (hws : p.wstart % 1000000 = 0) :
    p.wstart ≤ blk.1 ∧ blk.2 ≤ p.wend ∧ blk.1 ≤ blk.2 ∧
      blk.1 % 1000000 = 0 ∧ blk.2 % 1000000 = 0 := by
  rcases buildBlocksAux_mem_step h with ⟨c, hc⟩
  rcases blockStep_mem_eq hc with ⟨rfl, hlt⟩
  refine ⟨?_, ?_, trunc_mono (le_of_lt hlt), trunc_is_whole _, trunc_is_whole _⟩
  · have := trunc_mono (le_max_right c p.wstart)
    rwa [trunc_whole hws] at this
  · exact le_trans (trunc_le _) (min_le_right _ _)

/-- Provenance of a refined segment: it is a truncated sub-segment of a
free block, long enough for the requested duration. -/
theorem refined_mem {p : SParams} {r : Int × Int} (h : r ∈ refined p) :
    ∃ blk ∈ freeBlocks p, ∃ s ∈ subtract blk p.busy,
      r = (trunc s.1, trunc s.2) ∧ durationUs p ≤ s.2 - s.1 := by
  unfold refined at h
  rcases List.mem_flatMap.mp h with ⟨blk, hblk, hr⟩
  rcases List.mem_map.mp hr with ⟨s, hs, heq⟩
  rcases List.mem_filter.mp hs with ⟨hsmem, hcond⟩
  exact ⟨blk, hblk, s, hsmem, heq.symm, by simpa using hcond⟩

/-- Every refined segment accommodates the requested duration at its
start, and both its boundaries are whole seconds. -/
theorem refined_entry_props {p : SParams} {r : Int × Int} (h : r ∈ refined p) :
    r.1 + durationUs p ≤ r.2 ∧ trunc r.1 = r.1 ∧
      trunc (r.1 + durationUs p) = r.1 + durationUs p := by
  rcases refined_mem h with ⟨blk, _, s, _, rfl, hd⟩
  dsimp only
  have h1 : trunc (s.1 + durationUs p) ≤ trunc s.2 := trunc_mono (by omega)
  have h2 := trunc_add_mul s.1 (p.durationMinutes * 60)
  have h3 := trunc_add_mul (trunc s.1) (p.durationMinutes * 60)
  have h4 := trunc_idem s.1
  have h5 := trunc_idem (s.1 + durationUs p)
  rw [durationUs_eq] at *
  refine ⟨by omega, h4, by omega⟩

/-- Closed form of the proposal loop: when every block accommodates the
duration at its (already whole-second) start, the loop maps the first
`3 - n` blocks to anchored slots. -/
theorem proposeAux_eq (d : Int) :
    ∀ (l : List (Int × Int)) (n : Nat),
      (∀ blk ∈ l, blk.1 + d ≤ blk.2 ∧ trunc blk.1 = blk.1 ∧ trunc (blk.1 + d) = blk.1 + d) →
      n < 3 →
      proposeAux d l n = (l.take (3 - n)).map fun b => (b.1, b.1 + d) := by
  intro l
  induction l with
  | nil => intro n _ _; simp [proposeAux]
  | cons blk rest ih =>
      intro n hall hn
      obtain ⟨h1, h2, h3⟩ := hall blk (List.mem_cons_self blk rest)
      unfold proposeAux
      rw [if_pos h1]
      by_cases hn3 : n + 1 ≥ 3
      · have : n = 2 := by omega
        subst this
        simp [h2, h3]
      · rw [if_neg hn3,
          ih (n + 1) (fun b hb => hall b (List.mem_cons_of_mem blk hb)) (by omega)]
        have : 3 - n = (3 - (n + 1)) + 1 := by omega
        rw [this, List.take_succ_cons, List.map_cons, h2, h3]

/-- The candidate list is exactly the first three refined segments,
each mapped to a slot of the requested duration anchored at the
segment start. -/
theorem candidates_eq (p : SParams) :
    candidates p = ((refined p).take 3).map fun b => (b.1, b.1 + durationUs p) := by
  unfold candidates
  rw [proposeAux_eq (durationUs p) (refined p) 0 (fun b hb => refined_entry_props hb)
    (by omega)]

/-- Pairwise property of a flatMap, from pairwise properties of the
outer list and of each inner list plus a cross condition. -/
theorem pairwise_flatMap_of {A B : Type} {R : A → A → Prop} {S : B → B → Prop}
    (f : A → List B) :
    ∀ L : List A, List.Pairwise R L → (∀ a ∈ L, List.Pairwise S (f a)) →
      (∀ a a', R a a' → ∀ x ∈ f a, ∀ y ∈ f a', S x y) →
      List.Pairwise S (L.flatMap f) := by
  intro L
  induction L with
  | nil => intro _ _ _; simp
  | cons a L ih =>
      intro hP hins hcross
      rw [List.flatMap_cons]
      rcases List.pairwise_cons.mp hP with ⟨ha, hL⟩
      refine List.pairwise_append.mpr
        ⟨hins a (List.mem_cons_self a L),
          ih hL (fun a' h' => hins a' (List.mem_cons_of_mem a h')) hcross, ?_⟩
      intro x hx y hy
      rcases List.mem_flatMap.mp hy with ⟨a', ha', hya'⟩
      exact hcross a a' (ha a' ha') x hx y hya'

/-- The refined segments are chained chronologically when the busy
blocks are well-formed and the work-hour fields are in range. -/
theorem refined_chain {p : SParams} (hbusy : ∀ b ∈ p.busy, b.1 ≤ b.2)
    (hh : 0 ≤ p.hsH) (hm : 0 ≤ p.hsM) (he1 : p.heH ≤ 23) (he2 : p.heM ≤ 59) :
    List.Pairwise (fun u v : Int × Int => u.2 ≤ v.1) (refined p) := by
  unfold refined
  refine pairwise_flatMap_of _ (freeBlocks p) (buildBlocksAux_chain hh hm he1 he2 _ _) ?_ ?_
  · intro blk hblk
    have hblkNN : blk.1 ≤ blk.2 := by
      rcases buildBlocksAux_mem_step hblk with ⟨c, hc⟩
      rcases blockStep_mem_eq hc with ⟨rfl, hlt⟩
      exact trunc_mono (le_of_lt hlt)
    have hsub := foldl_applyObstacle_chain hbusy [blk]
      (List.pairwise_singleton _ _) (by intro u hu; rcases List.mem_singleton.mp hu with rfl; exact hblkNN)
    refine List.Pairwise.map _ ?_
      (List.Pairwise.sublist (List.filter_sublist _) hsub.1)
    intro u v huv
    exact trunc_mono huv
  · intro blk blk' hbb x hx y hy
    rcases List.mem_map.mp hx with ⟨s, hs, rfl⟩
    rcases List.mem_map.mp hy with ⟨s', hs', rfl⟩
    have hb1 := subtract_bounds (List.mem_filter.mp hs).1
    have hb2 := subtract_bounds (List.mem_filter.mp hs').1
    exact trunc_mono (by omega)

/-- All refined segments are well-formed intervals when the busy blocks
are. -/
theorem refined_nonneg {p : SParams} (hbusy : ∀ b ∈ p.busy, b.1 ≤ b.2)
    {r : Int × Int} (hr : r ∈ refined p) : r.1 ≤ r.2 := by
  rcases refined_mem hr with ⟨blk, hblk, s, hs, rfl, _⟩
  have hblkNN : blk.1 ≤ blk.2 := by
    rcases buildBlocksAux_mem_step hblk with ⟨c, hc⟩
    rcases blockStep_mem_eq hc with ⟨rfl, hlt⟩
    exact trunc_mono (le_of_lt hlt)
  have hsub := foldl_applyObstacle_chain hbusy [blk]
    (List.pairwise_singleton _ _) (by intro u hu; rcases List.mem_singleton.mp hu with rfl; exact hblkNN)
  exact trunc_mono (hsub.2 s hs)

/-- C6: every candidate slot has length exactly the requested duration,
and the candidate list is precisely the first three refined free
segments, each contributing one slot anchored at the segment start. -/
theorem c6_slot_duration (p : SParams) :
    candidates p = (((refined p).take 3).map fun b => (b.1, b.1 + durationUs p)) ∧
      ∀ c ∈ candidates p, c.2 - c.1 = durationUs p := by
  refine ⟨candidates_eq p, ?_⟩
  intro c hc
  rw [candidates_eq p] at hc
  rcases List.mem_map.mp hc with ⟨b, _, rfl⟩
  dsimp only
  omega

/-- A 10-hour window starting at instant 0, work hours 0:00-10:00,
30-minute request, no day restriction, no busy blocks. -/
def exampleEmptyBusy : SParams := ⟨0, 36000000000, 30, 0, 0, 10, 0, [], []⟩

/-- The same window with one well-formed busy block 2:00-2:30. -/
def exampleOneBusy : SParams := ⟨0, 36000000000, 30, 0, 0, 10, 0, [], [(7200000000, 9000000000)]⟩

/-- The same window with a reversed busy block (end before start)
followed by a well-formed one. -/
def exampleReversedBusy : SParams :=
  ⟨0, 36000000000, 30, 0, 0, 10, 0, [], [(18000000000, 7200000000), (9600000000, 10200000000)]⟩

/-- Witness for C6: with an empty busy list and work hours 0:00-10:00,
a 30-minute request over a 10-hour window yields the slot anchored at
the window start, of exactly the requested duration. -/
theorem c6_witness :
    ((0 : Int), (1800000000 : Int)).2 - ((0 : Int), (1800000000 : Int)).1 =
      durationUs exampleEmptyBusy :=
  (c6_slot_duration exampleEmptyBusy).2 ((0 : Int), (1800000000 : Int)) (by decide)

/-- C7 counterexample: with the reversed busy block
(18000000000, 7200000000) the engine returns three slots whose starts
are not in non-decreasing chronological order. -/
theorem c7_counterexample :
    candidates exampleReversedBusy =
      [(0, 1800000000), (10200000000, 12000000000), (7200000000, 9000000000)] ∧
      ¬ List.Pairwise (fun u v : Int × Int => u.1 ≤ v.1)
          [((0 : Int), (1800000000 : Int)), (10200000000, 12000000000),
            (7200000000, 9000000000)] := by
  constructor
  · decide
  · decide

/-- C7 (amended): the engine never returns more than three candidates;
when every busy block is well-formed and the work-hour fields are in
calendar range, the candidates are in non-decreasing start order. -/
theorem c7_bounded_and_ordered (p : SParams) :
    (candidates p).length ≤ 3 ∧
      ((∀ b ∈ p.busy, b.1 ≤ b.2) → 0 ≤ p.hsH → 0 ≤ p.hsM → p.heH ≤ 23 → p.heM ≤ 59 →
        List.Pairwise (fun u v : Int × Int => u.1 ≤ v.1) (candidates p)) := by
  constructor
  · rw [candidates_eq]
    simp only [List.length_map, List.length_take]
    omega
  · intro hbusy hh hm he1 he2
    rw [candidates_eq]
    have hchain := refined_chain hbusy hh hm he1 he2
    have hstarts : List.Pairwise (fun u v : Int × Int => u.1 ≤ v.1) (refined p) := by
      refine hchain.imp_of_mem ?_
      intro u v hu _ huv
      have := refined_nonneg hbusy hu
      omega
    exact List.Pairwise.map _ (fun u v h => h)
      (List.Pairwise.sublist (List.take_sublist 3 _) hstarts)

/-- Witness for C7: with well-formed busy data the hypotheses of the
ordering part hold and the returned slots are chronologically
ordered. -/
theorem c7_witness :
    List.Pairwise (fun u v : Int × Int => u.1 ≤ v.1) (candidates exampleOneBusy) :=
  (c7_bounded_and_ordered exampleOneBusy).2 (by decide) (by decide) (by decide)
    (by decide) (by decide)

/-- C10: when the window boundaries and all busy timestamps are whole
seconds, every candidate slot lies inside the window and shares no
instant with any busy block. -/
theorem c10_candidates_in_window_and_free (p : SParams)
    (hws : p.wstart % 1000000 = 0) (hwe : p.wend % 1000000 = 0)
    (hbusy : ∀ b ∈ p.busy, b.1 % 1000000 = 0 ∧ b.2 % 1000000 = 0) :
    ∀ c ∈ candidates p, ∀ x : Int, memIv x c →
      (p.wstart ≤ x ∧ x < p.wend) ∧ ∀ b ∈ p.busy, ¬ memIv x b := by
  intro c hc x hx
  rw [candidates_eq p] at hc
  rcases List.mem_map.mp hc with ⟨r, hr, rfl⟩
  have hrmem : r ∈ refined p := (List.take_sublist 3 _).subset hr
  rcases refined_mem hrmem with ⟨blk, hblk, s, hs, heq, hd⟩
  have hblkP := freeBlocks_mem_props hblk hws
  have hwholeS : s.1 % 1000000 = 0 ∧ s.2 % 1000000 = 0 :=
    foldl_applyObstacle_whole hbusy [blk]
      (by intro u hu; rcases List.mem_singleton.mp hu with rfl
          exact ⟨hblkP.2.2.2.1, hblkP.2.2.2.2⟩) s hs
  have e1 : trunc s.1 = s.1 := trunc_whole hwholeS.1
  have e2 : trunc s.2 = s.2 := trunc_whole hwholeS.2
  subst heq
  dsimp only at hx
  rw [e1] at hx
  obtain ⟨hx1, hx2⟩ := hx
  have hxs : memIv x s := ⟨hx1, by omega⟩
  have hmem := (mem_subtract blk p.busy x).mp ⟨s, hs, hxs⟩
  obtain ⟨hbx1, hbx2⟩ := hmem.1
  exact ⟨⟨by omega, by omega⟩, hmem.2⟩

/-- Witness for C10: a whole-second window with one whole-second busy
block; the first candidate slot contains the instant 0, which lies in
the window and in no busy block. -/
theorem c10_witness :
    ((exampleOneBusy.wstart ≤ (0 : Int) ∧ (0 : Int) < exampleOneBusy.wend) ∧
      ¬ memIv 0 ((7200000000 : Int), (9000000000 : Int))) :=
  ⟨(c10_candidates_in_window_and_free exampleOneBusy
      (by decide) (by decide) (by decide)
      ((0 : Int), (1800000000 : Int)) (by decide) 0 (by decide)).1,
    (c10_candidates_in_window_and_free exampleOneBusy
      (by decide) (by decide) (by decide)
      ((0 : Int), (1800000000 : Int)) (by decide) 0 (by decide)).2
      ((7200000000 : Int), (9000000000 : Int)) (by decide)⟩

/-! ### Availability Resolver and Event Commit Normalizer
(`app/tools/google_tools.py`)

Both tools compare timezone-aware datetimes, which compare as
instants; the model works on the microsecond timeline.  One day is
86400000000 microseconds and one week 604800000000.  Python's
`timedelta.days` is floor division of the difference by one day, and
`//` is floor division; both coincide with Lean's Euclidean `/` for
the positive divisors used, on the nonnegative differences arising in
the branches below. -/

/-- The past-slot correction of `create_event` (`google_tools.py`,
lines 130-137): when `end_dt <= now`, jump both boundaries forward by
`((now - end_dt).days // 7 + 1)` weeks, else leave them unchanged. -/
def create_event_roll (start_dt end_dt now : Int) : Int × Int :=
  if end_dt ≤ now then
    let delta_days := (now - end_dt) / 86400000000
    let weeks := delta_days / 7 + 1
    let jump := 604800000000 * weeks
    (start_dt + jump, end_dt + jump)
  else (start_dt, end_dt)

/-- C1: when the normalized end is at or before `now`, `create_event`
shifts both boundaries forward by `weeks = (now - end).days // 7 + 1`
whole weeks, the shifted end lands strictly after `now`, and `weeks`
is the least positive whole number of weeks achieving that; when the
end is already strictly after `now`, nothing changes. -/
theorem c1_create_event_roll_forward (start_dt end_dt now : Int) :
    (end_dt ≤ now →
      create_event_roll start_dt end_dt now =
          (start_dt + 604800000000 * ((now - end_dt) / 86400000000 / 7 + 1),
            end_dt + 604800000000 * ((now - end_dt) / 86400000000 / 7 + 1)) ∧
        now < end_dt + 604800000000 * ((now - end_dt) / 86400000000 / 7 + 1) ∧
        (∀ k : Int, 0 < k → now < end_dt + 604800000000 * k →
          (now - end_dt) / 86400000000 / 7 + 1 ≤ k)) ∧
      (now < end_dt → create_event_roll start_dt end_dt now = (start_dt, end_dt)) := by
  constructor
  · intro h
    unfold create_event_roll
    rw [if_pos h]
    refine ⟨rfl, by omega, ?_⟩
    intro k hk hlt
    omega
  · intro h
    unfold create_event_roll
    rw [if_neg (by omega)]

/-- Witness for C1: an event that ended 10 days before `now` is moved
forward by exactly 2 weeks, and an event in the future is kept. -/
theorem c1_witness :
    (create_event_roll (-3600000000) 0 864000000000 =
        (-3600000000 + 1209600000000, 1209600000000) ∧
      create_event_roll 0 3600000000 0 = (0, 3600000000)) := by
  have h1 := (c1_create_event_roll_forward (-3600000000) 0 864000000000).1 (by decide)
  have h2 := (c1_create_event_roll_forward 0 3600000000 0).2 (by decide)
  refine ⟨?_, h2⟩
  rw [h1.1]
  decide

/-- The `while we <= now_utc` loop of `get_availability`
(`google_tools.py`, lines 73-77), with explicit fuel standing for the
finite number of iterations; `availability_roll` supplies sufficient
fuel. -/
def availability_roll_aux : Nat → Int → Int → Int → Int × Int
  | 0, ws, we, _ => (ws, we)
  | fuel + 1, ws, we, now =>
      if we ≤ now then availability_roll_aux fuel (ws + 604800000000) (we + 604800000000) now
      else (ws, we)

/-- The window roll-forward of `get_availability`: advance both
boundaries by whole weeks while the end is at or before `now`. -/
def availability_roll (ws we now : Int) : Int × Int :=
  availability_roll_aux (((now - we) / 604800000000).toNat + 1) ws we now

/-- Behaviour of the roll-forward loop under sufficient fuel: both
boundaries advance by the same, minimal number of whole weeks placing
the end strictly after `now`. -/
theorem availability_roll_aux_spec :
    ∀ (fuel : Nat) (ws we now : Int), now - we < 604800000000 * (fuel : Int) →
      ∃ k : Int, 0 ≤ k ∧
        availability_roll_aux fuel ws we now =
          (ws + 604800000000 * k, we + 604800000000 * k) ∧
        now < we + 604800000000 * k ∧
        (∀ j : Int, 0 ≤ j → now < we + 604800000000 * j → k ≤ j) := by
  intro fuel
  induction fuel with
  | zero =>
      intro ws we now hfuel
      exact ⟨0, le_refl 0, by simp [availability_roll_aux], by
        simp only [Nat.cast_zero] at hfuel; omega, fun j hj _ => by
        simp only [Nat.cast_zero] at hfuel; omega⟩
  | succ n ih =>
      intro ws we now hfuel
      unfold availability_roll_aux
      by_cases h : we ≤ now
      · rw [if_pos h]
        rcases ih (ws + 604800000000) (we + 604800000000) now
            (by push_cast at hfuel ⊢; omega) with ⟨k, hk0, heq, hlt, hmin⟩
        refine ⟨k + 1, by omega,
          by rw [heq, Prod.mk.injEq]; constructor <;> ring, by omega, ?_⟩
        intro j hj hjlt
        have hj1 : 1 ≤ j := by
          by_contra hcon
          have : j = 0 := by omega
          subst this
          omega
        have := hmin (j - 1) (by omega) (by omega)
        omega
      · rw [if_neg h]
        exact ⟨0, le_refl 0, by simp, by omega, fun j hj _ => by omega⟩

/-- C2: the availability window produced by `get_availability` always
ends strictly after `now`; both boundaries are advanced by the same,
minimal number of whole 7-day increments, so the window length is
preserved, and a window already ending after `now` is unchanged. -/
theorem c2_availability_future_window (ws we now : Int) :
    ∃ k : Int, 0 ≤ k ∧
      availability_roll ws we now = (ws + 604800000000 * k, we + 604800000000 * k) ∧
      now < we + 604800000000 * k ∧
      (availability_roll ws we now).2 - (availability_roll ws we now).1 = we - ws ∧
      (∀ j : Int, 0 ≤ j → now < we + 604800000000 * j → k ≤ j) ∧
      (now < we → availability_roll ws we now = (ws, we)) := by
  have hfuel : now - we < 604800000000 * ((((now - we) / 604800000000).toNat + 1 : Nat) : Int) := by
    push_cast
    omega
  rcases availability_roll_aux_spec _ ws we now hfuel with ⟨k, hk0, heq, hlt, hmin⟩
  have heq' : availability_roll ws we now = (ws + 604800000000 * k, we + 604800000000 * k) := heq
  refine ⟨k, hk0, heq', hlt, by rw [heq']; dsimp only; ring, hmin, ?_⟩
  intro hfut
  have hk0' : k ≤ 0 := hmin 0 (le_refl 0) (by omega)
  have : k = 0 := le_antisymm hk0' hk0
  subst this
  simpa using heq'

/-- Witness for C2: a window already ending after `now` is returned
unchanged. -/
theorem c2_witness :
    availability_roll 0 1296000000000 777600000000 = (0, 1296000000000) := by
  obtain ⟨k, hk0, heq, hlt, hlen, hmin, hunch⟩ :=
    c2_availability_future_window 0 1296000000000 777600000000
  exact hunch (by decide)

/-! ### Tool Orchestration Loop (`app/main.py`)

`maybe_parse_tool_call` (lines 68-78) strips the model reply, tests
whether it starts with an opening brace, parses it with `json.loads`,
and accepts it when the result is a dict containing both a `tool` and
an `args` key.  The JSON parser below models `json.loads` for the
standard JSON grammar (objects, arrays, strings with escapes, numbers
kept as raw tokens, booleans, null, strict about control characters
and trailing data); object members are kept in order with duplicates
retained, and lookup takes the last occurrence, matching the dict the
Python parser builds. -/

/-- JSON values as produced by `json.loads`. -/
inductive JVal where
  | jnull : JVal
  | jbool : Bool → JVal
  | jnum : String → JVal
  | jstr : String → JVal
  | jarr : List JVal → JVal
  | jobj : List (String × JVal) → JVal

/-- ASCII whitespace stripped by Python `str.strip()`. -/
def pyWs (c : Char) : Bool :=
  c == ' ' || c == '\t' || c == '\n' || c == '\r' || c == '\x0b' || c == '\x0c'

/-- Python `str.strip()` on a character list (ASCII whitespace). -/
def pyStrip (l : List Char) : List Char :=
  ((l.dropWhile pyWs).reverse.dropWhile pyWs).reverse

/-- Whitespace skipped inside JSON documents. -/
def jsonWs (c : Char) : Bool :=
  c == ' ' || c == '\t' || c == '\n' || c == '\r'

/-- Skip JSON whitespace. -/
def skipWs (l : List Char) : List Char := l.dropWhile jsonWs

/-- Value of one hexadecimal digit. -/
def hexVal (c : Char) : Option Nat :=
  if '0' ≤ c ∧ c ≤ '9' then some (c.toNat - 48)
  else if 'a' ≤ c ∧ c ≤ 'f' then some (c.toNat - 87)
  else if 'A' ≤ c ∧ c ≤ 'F' then some (c.toNat - 55)
  else none

/-- Single-character JSON string escapes. -/
def escChar : Char → Option Char
  | '"' => some '"'
  | '\\' => some '\\'
  | '/' => some '/'
  | 'b' => some (Char.ofNat 8)
  | 'f' => some (Char.ofNat 12)
  | 'n' => some '\n'
  | 'r' => some '\r'
  | 't' => some '\t'
  | _ => none

/-- Body of a JSON string after the opening quote: collect characters
until the closing quote, handling escapes, rejecting raw control
characters (as the strict Python scanner does). -/
def parseStrAux : List Char → List Char → Option (String × List Char)
  | acc, '"' :: rest => some (String.mk acc.reverse, rest)
  | acc, '\\' :: 'u' :: h1 :: h2 :: h3 :: h4 :: rest =>
      match hexVal h1, hexVal h2, hexVal h3, hexVal h4 with
      | some a, some b, some c, some d =>
          parseStrAux (Char.ofNat (((a * 16 + b) * 16 + c) * 16 + d) :: acc) rest
      | _, _, _, _ => none
  | acc, '\\' :: c :: rest =>
      match escChar c with
      | some e => parseStrAux (e :: acc) rest
      | none => none
  | acc, c :: rest => if c.toNat < 32 then none else parseStrAux (c :: acc) rest
  | _, [] => none

/-- Leading decimal digits of a token and the remaining input. -/
def digitSpan (l : List Char) : List Char × List Char :=
  (l.takeWhile Char.isDigit, l.dropWhile Char.isDigit)

/-- Integer part of a JSON number: `0`, or a nonzero digit followed by
digits (leading zeros are rejected, as in the JSON grammar). -/
def parseIntPart : List Char → Option (List Char × List Char)
  | '0' :: rest => some (['0'], rest)
  | c :: rest =>
      if c.isDigit then
        match digitSpan rest with
        | (ds, r) => some (c :: ds, r)
      else none
  | [] => none

/-- Optional fractional part of a JSON number. -/
def parseFracPart : List Char → Option (List Char × List Char)
  | '.' :: rest =>
      match digitSpan rest with
      | (ds, r) => if ds.isEmpty then none else some ('.' :: ds, r)
  | l => some ([], l)

/-- Optional exponent part of a JSON number. -/
def parseExpPart : List Char → Option (List Char × List Char)
  | c :: rest =>
      if c == 'e' || c == 'E' then
        match rest with
        | s :: rest2 =>
            if s == '+' || s == '-' then
              match digitSpan rest2 with
              | (ds, r) => if ds.isEmpty then none else some (c :: s :: ds, r)
            else
              match digitSpan rest with
              | (ds, r) => if ds.isEmpty then none else some (c :: ds, r)
        | [] => none
      else some ([], c :: rest)
  | [] => some ([], [])

/-- A JSON number, kept as its raw token text. -/
def parseNum (l : List Char) : Option (JVal × List Char) :=
  let (sign, l1) :=
    match l with
    | '-' :: rest => (['-'], rest)
    | _ => ([], l)
  match parseIntPart l1 with
  | none => none
  | some (ip, l2) =>
      match parseFracPart l2 with
      | none => none
      | some (fp, l3) =>
          match parseExpPart l3 with
          | none => none
          | some (ep, l4) => some (JVal.jnum (String.mk (sign ++ ip ++ fp ++ ep)), l4)

/-- Member loop of a JSON object, given a parser `pv` for values; the
inner fuel only bounds the number of members. -/
def objLoop (pv : List Char → Option (JVal × List Char)) :
    Nat → List (String × JVal) → List Char → Option (JVal × List Char)
  | 0, _, _ => none
  | n + 1, acc, l =>
      match l with
      | '"' :: r =>
          match parseStrAux [] r with
          | some (k, r1) =>
              match skipWs r1 with
              | ':' :: r2 =>
                  match pv r2 with
                  | some (v, r3) =>
                      match skipWs r3 with
                      | ',' :: r4 => objLoop pv n (acc ++ [(k, v)]) (skipWs r4)
                      | '\x7d' :: r4 => some (JVal.jobj (acc ++ [(k, v)]), r4)
                      | _ => none
                  | none => none
              | _ => none
          | none => none
      | _ => none

/-- Element loop of a JSON array. -/
def arrLoop (pv : List Char → Option (JVal × List Char)) :
    Nat → List JVal → List Char → Option (JVal × List Char)
  | 0, _, _ => none
  | n + 1, acc, l =>
      match pv l with
      | some (v, r) =>
          match skipWs r with
          | ',' :: r2 => arrLoop pv n (acc ++ [v]) r2
          | ']' :: r2 => some (JVal.jarr (acc ++ [v]), r2)
          | _ => none
      | none => none

/-- One JSON value, with fuel bounding the nesting depth. -/
def parseVal : Nat → List Char → Option (JVal × List Char)
  | 0, _ => none
  | n + 1, l =>
      match skipWs l with
      | 'n' :: 'u' :: 'l' :: 'l' :: r => some (JVal.jnull, r)
      | 't' :: 'r' :: 'u' :: 'e' :: r => some (JVal.jbool true, r)
      | 'f' :: 'a' :: 'l' :: 's' :: 'e' :: r => some (JVal.jbool false, r)
      | '"' :: r =>
          match parseStrAux [] r with
          | some (s, r1) => some (JVal.jstr s, r1)
          | none => none
      | '\x7b' :: r =>
          match skipWs r with
          | '\x7d' :: r2 => some (JVal.jobj [], r2)
          | r2 => objLoop (parseVal n) (r2.length + 1) [] r2
      | '[' :: r =>
          match skipWs r with
          | ']' :: r2 => some (JVal.jarr [], r2)
          | r2 => arrLoop (parseVal n) (r2.length + 1) [] r2
      | r => parseNum r

/-- `json.loads` on a character list: parse one value and require only
whitespace to remain. -/
def json_loads (l : List Char) : Option JVal :=
  match parseVal (2 * l.length + 2) l with
  | some (v, rest) => if skipWs rest = [] then some v else none
  | none => none

/-- Key presence in a parsed JSON object (`"tool" in obj`). -/
def hasKey (fs : List (String × JVal)) (k : String) : Bool :=
  fs.any fun p => p.1 == k

/-- Dict lookup on a parsed JSON object: the last occurrence wins, as
in the dict built by the Python parser. -/
def jGet (fs : List (String × JVal)) (k : String) : Option JVal :=
  ((fs.filter fun p => p.1 == k).getLast?).map Prod.snd

/-- Does the stripped text start with an opening brace
(`text.startswith(...)` on line 70)? -/
def startsWithBrace : List Char → Bool
  | '\x7b' :: _ => true
  | _ => false

/-- `maybe_parse_tool_call` (`app/main.py`, lines 68-78): strip the
reply, require a leading brace, parse as JSON, and accept any dict
that has both a `tool` and an `args` key, returning the dict. -/
def maybe_parse_tool_call (text : String) : Option (List (String × JVal)) :=
  if startsWithBrace (pyStrip text.data) then
    match json_loads (pyStrip text.data) with
    | some (JVal.jobj fs) =>
        if hasKey fs "tool" && hasKey fs "args" then some fs else none
    | _ => none
  else none

/-- The fixed tool registry of `app/tools/__init__.py`. -/
def knownTool (n : String) : Bool :=
  n == "get_availability" || n == "suggest_times" || n == "create_event"

/-- `args.setdefault("organizer_user_id", body.user_id)` (line 110):
append the caller identity only when the key is absent. -/
def injectOrganizer (userId : String) (afs : List (String × JVal)) :
    List (String × JVal) :=
  if hasKey afs "organizer_user_id" then afs
  else afs ++ [("organizer_user_id", JVal.jstr userId)]

/-- Outcome of the routing part of `chat` for one model reply. -/
inductive ChatStep where
  | plainReply : String → ChatStep
  | dispatchTo : String → List (String × JVal) → ChatStep
  | unknownTool : JVal → ChatStep
  | crashed : ChatStep

/-- The routing logic of `chat` (`app/main.py`, lines 102-118): no
tool call means the first reply is returned as is; otherwise the
organizer identity is injected into the args (which must behave as a
dict: `setdefault` on any other value raises, modelled by `crashed`),
then the registry is consulted — a string name outside the registry is
the unknown-tool error, an unhashable name (dict or list) raises. -/
def chat_route (userId first : String) : ChatStep :=
  match maybe_parse_tool_call first with
  | none => ChatStep.plainReply first
  | some fs =>
      let name := (jGet fs "tool").getD JVal.jnull
      let args := (jGet fs "args").getD (JVal.jobj [])
      match args with
      | JVal.jobj afs =>
          let afs' := injectOrganizer userId afs
          match name with
          | JVal.jstr n =>
              if knownTool n then ChatStep.dispatchTo n afs'
              else ChatStep.unknownTool (JVal.jstr n)
          | JVal.jobj _ => ChatStep.crashed
          | JVal.jarr _ => ChatStep.crashed
          | other => ChatStep.unknownTool other
      | _ => ChatStep.crashed

/-- The reply returned by `chat` when it completes without error
(`app/main.py`, lines 104-105 and 126-127), given the model's first
and second replies: the first reply verbatim when it is not a tool
call, and after a successful dispatch the second reply, with an empty
one replaced by the placeholder (`final or "(no response)"`). -/
def chat_reply (userId first second : String) : Option String :=
  match chat_route userId first with
  | ChatStep.plainReply s => some s
  | ChatStep.dispatchTo _ _ => some (if second = "" then "(no response)" else second)
  | _ => none

/-- The injected args always carry the organizer key. -/
theorem hasKey_injectOrganizer (u : String) (afs : List (String × JVal)) :
    hasKey (injectOrganizer u afs) "organizer_user_id" = true := by
  unfold injectOrganizer
  split_ifs with h
  · exact h
  · unfold hasKey at *
    rw [List.any_append]
    simp

/-- C3 counterexample: a JSON object whose `tool` value is not a known
tool name is still detected as a tool call, and `chat` surfaces the
unknown-tool error instead of returning the text as its final reply. -/
theorem c3_counterexample :
    (maybe_parse_tool_call "\x7b\"tool\":\"bogus\",\"args\":\x7b\x7d\x7d").isSome = true ∧
      knownTool "bogus" = false ∧
      chat_route "u" "\x7b\"tool\":\"bogus\",\"args\":\x7b\x7d\x7d" =
        ChatStep.unknownTool (JVal.jstr "bogus") ∧
      chat_route "u" "\x7b\"tool\":\"bogus\",\"args\":\x7b\x7d\x7d" ≠
        ChatStep.plainReply "\x7b\"tool\":\"bogus\",\"args\":\x7b\x7d\x7d" := by
  refine ⟨rfl, rfl, rfl, ?_⟩
  rw [show chat_route "u" "\x7b\"tool\":\"bogus\",\"args\":\x7b\x7d\x7d" =
    ChatStep.unknownTool (JVal.jstr "bogus") from rfl]
  simp

/-- C3 (amended): a model reply is detected as a tool call exactly when
its stripped text starts with a brace and parses as a JSON object
containing both a `tool` and an `args` key, with no constraint on
their values; the plain text, well-formed tool call, and missing-args
examples behave as specified. -/
theorem c3_tool_call_detection :
    (∀ text : String,
        (maybe_parse_tool_call text).isSome = true ↔
          startsWithBrace (pyStrip text.data) = true ∧
            ∃ fs, json_loads (pyStrip text.data) = some (JVal.jobj fs) ∧
              hasKey fs "tool" = true ∧ hasKey fs "args" = true) ∧
      maybe_parse_tool_call "Sure, I can help." = none ∧
      (maybe_parse_tool_call "\x7b\"tool\":\"get_availability\",\"args\":\x7b\x7d\x7d").isSome = true ∧
      maybe_parse_tool_call "\x7b\"tool\":\"get_availability\"\x7d" = none := by
  refine ⟨?_, rfl, rfl, rfl⟩
  intro text
  unfold maybe_parse_tool_call
  cases hb : startsWithBrace (pyStrip text.data)
  · simp
  · rw [if_pos (show true = true from rfl)]
    cases hj : json_loads (pyStrip text.data) with
    | none => simp [hj]
    | some v =>
        cases v <;> simp

/-- Witness for C3: a concrete reply whose parse contains both keys
(with non-string, non-object values) is detected. -/
theorem c3_witness :
    (maybe_parse_tool_call "\x7b\"a\":1,\"tool\":null,\"args\":0\x7d").isSome = true :=
  (c3_tool_call_detection.1 "\x7b\"a\":1,\"tool\":null,\"args\":0\x7d").mpr
    ⟨rfl, [("a", JVal.jnum "1"), ("tool", JVal.jnull), ("args", JVal.jnum "0")],
      rfl, rfl, rfl⟩

/-- C8 counterexample: when the model's first reply is the empty string
(no tool call), `chat` returns the empty string to the caller — the
placeholder is not applied on this path. -/
theorem c8_counterexample : chat_reply "u" "" "ok" = some "" := rfl

/-- C8 (amended): the first-reply path returns the model text verbatim
(even when empty); only the reply following a tool dispatch is
protected, where an empty second reply is replaced by the placeholder,
so that path never returns an empty string. -/
theorem c8_reply_paths (userId first second : String) :
    (maybe_parse_tool_call first = none → chat_reply userId first second = some first) ∧
      (∀ (n : String) (a : List (String × JVal)),
        chat_route userId first = ChatStep.dispatchTo n a →
          chat_reply userId first second =
              some (if second = "" then "(no response)" else second) ∧
            chat_reply userId first second ≠ some "") := by
  constructor
  · intro h
    unfold chat_reply chat_route
    rw [h]
  · intro n a h
    unfold chat_reply
    rw [h]
    refine ⟨rfl, ?_⟩
    split_ifs with hs
    · simp
    · simp [hs]

/-- Witness for C8: a plain-text reply is returned verbatim, and an
empty second reply after a dispatched tool call is replaced. -/
theorem c8_witness :
    chat_reply "u" "hello" "x" = some "hello" ∧
      chat_reply "alice" "\x7b\"tool\":\"get_availability\",\"args\":\x7b\x7d\x7d" "" ≠
        some "" :=
  ⟨(c8_reply_paths "u" "hello" "x").1 rfl,
    ((c8_reply_paths "alice" "\x7b\"tool\":\"get_availability\",\"args\":\x7b\x7d\x7d" "").2
      "get_availability" [("organizer_user_id", JVal.jstr "alice")] rfl).2⟩

/-- C9 counterexample: when the model supplies its own
`organizer_user_id`, `setdefault` keeps it, so the dispatched args do
not carry the caller's identity. -/
theorem c9_counterexample :
    chat_route "alice"
        "\x7b\"tool\":\"get_availability\",\"args\":\x7b\"organizer_user_id\":\"evil\"\x7d\x7d" =
      ChatStep.dispatchTo "get_availability" [("organizer_user_id", JVal.jstr "evil")] ∧
      jGet [("organizer_user_id", JVal.jstr "evil")] "organizer_user_id" ≠
        some (JVal.jstr "alice") := by
  refine ⟨rfl, ?_⟩
  rw [show jGet [("organizer_user_id", JVal.jstr "evil")] "organizer_user_id" =
    some (JVal.jstr "evil") from rfl]
  intro h
  injection h with h1
  injection h1 with h2
  exact absurd h2 (by decide)

/-- C9 (amended): the caller identity is injected into the args only
when the model did not supply an `organizer_user_id`; dispatched args
always contain the key, but a model-supplied value is kept rather than
overridden. -/
theorem c9_organizer_injection :
    (∀ (u : String) (afs : List (String × JVal)),
        (hasKey afs "organizer_user_id" = false →
          jGet (injectOrganizer u afs) "organizer_user_id" = some (JVal.jstr u)) ∧
          (hasKey afs "organizer_user_id" = true → injectOrganizer u afs = afs)) ∧
      ∀ (u first n : String) (a : List (String × JVal)),
        chat_route u first = ChatStep.dispatchTo n a →
          hasKey a "organizer_user_id" = true := by
  constructor
  · intro u afs
    constructor
    · intro h
      unfold injectOrganizer
      rw [if_neg (by rw [h]; exact Bool.false_ne_true)]
      unfold jGet
      rw [List.filter_append]
      have hnil : afs.filter (fun p => p.1 == "organizer_user_id") = [] := by
        rw [List.filter_eq_nil_iff]
        intro p hp
        have h2 := List.any_eq_false.mp
          (show afs.any (fun q => q.1 == "organizer_user_id") = false from h) p hp
        simpa using h2
      rw [hnil]
      rfl
    · intro h
      unfold injectOrganizer
      rw [if_pos h]
  · intro u first n a h
    unfold chat_route at h
    cases hm : maybe_parse_tool_call first with
    | none => rw [hm] at h; exact ChatStep.noConfusion h
    | some fs =>
        rw [hm] at h
        dsimp only at h
        cases hargs : (jGet fs "args").getD (JVal.jobj []) <;> rw [hargs] at h <;>
          try exact ChatStep.noConfusion h
        case jobj afs =>
          dsimp only at h
          cases hname : (jGet fs "tool").getD JVal.jnull <;> rw [hname] at h <;>
            try exact ChatStep.noConfusion h
          case jstr n' =>
            dsimp only at h
            split_ifs at h with hk
            all_goals injection h with h1 h2
            all_goals rw [← h2]
            all_goals exact hasKey_injectOrganizer u afs

/-- Witness for C9: injecting into args without the key yields the
caller identity, and a dispatched call carries the key. -/
theorem c9_witness :
    jGet (injectOrganizer "alice" []) "organizer_user_id" =
      some (JVal.jstr "alice") :=
  (c9_organizer_injection.1 "alice" []).1 rfl

end Scheduler
